import Mathlib

/-!
Verification of the dictionary data engine of the learn-language-obsidian
plugin: a shallow embedding, in Lean, of the pure computational kernels of
`TermService` (inline-field and front-matter mutation), `DictionaryService`
(entry building and verb derivation), `FilterService` (filtering and facet
extraction) and the `OpenAIService` polling loops, together with theorems
about the behaviour those kernels exhibit.

Conventions of the embedding:
* JavaScript strings are Lean `String`s; character lists (`String.data`)
  are used for the character-level scanning the source performs with
  regular expressions.
* File contents are modelled as lists of lines (the split of the content
  on the newline character).  The source's multiline regular expressions
  (`m` flag) anchor on line starts and their `.` never crosses a newline,
  so a first-match line rewrite corresponds to rewriting the first
  matching line of the list.  (The exotic case of a `\s` matching the
  newline itself — a field name alone on a line with `::` opening the
  next line — is outside the note format and not modelled.)
* JavaScript objects used as string maps are modelled as functions
  `String → Option _`; `undefined` is `none`.
-/

namespace LearnLanguage

/-- JavaScript whitespace class `\s` (the code points of the ECMAScript
`WhiteSpace` and `LineTerminator` productions). -/
def jsWs (c : Char) : Bool :=
  c == ' ' || c == '\t' || c == '\n' || c == '\x0b' || c == '\x0c' ||
  c == '\r' || c.toNat == 0xa0 || c.toNat == 0x1680 ||
  (0x2000 ≤ c.toNat && c.toNat ≤ 0x200a) ||
  c.toNat == 0x2028 || c.toNat == 0x2029 || c.toNat == 0x202f ||
  c.toNat == 0x205f || c.toNat == 0x3000 || c.toNat == 0xfeff

/-- `String.prototype.trim`: strip leading and trailing `\s` characters. -/
def jsTrimList (l : List Char) : List Char :=
  ((l.dropWhile jsWs).reverse.dropWhile jsWs).reverse

/-- `String.prototype.trim` on strings. -/
def jsTrim (s : String) : String :=
  ⟨jsTrimList s.data⟩

/-- Boolean list-prefix test (for `String.prototype.startsWith` and as the
matching step of the substring scan). -/
def isPrefixB : List Char → List Char → Bool
  | [], _ => true
  | _ :: _, [] => false
  | a :: as, b :: bs => a == b && isPrefixB as bs

/-- Boolean substring occurrence test: `sub` occurs somewhere in `l`. -/
def isInfixB (sub : List Char) : List Char → Bool
  | [] => isPrefixB sub []
  | l@(_ :: rest) => isPrefixB sub l || isInfixB sub rest

/-- `String.prototype.includes`. -/
def jsIncludes (s sub : String) : Bool :=
  isInfixB sub.data s.data

/-- `String.prototype.startsWith`. -/
def jsStartsWith (s p : String) : Bool :=
  isPrefixB p.data s.data

/-- `String.prototype.toLowerCase`, restricted to the ASCII range (the
values the engine lower-cases and compares — field keys, the `"new"`
sentinel, filter strings — are compared on their ASCII letters; accented
letters pass through unchanged on both sides of every comparison the
settled claims depend on). -/
def jsToLower (s : String) : String :=
  String.mk (s.data.map Char.toLower)

/-- Scanner for `String.prototype.split(sep)` with a non-empty separator
`c :: rest`: leftmost, non-overlapping occurrences of the separator cut
the character list. -/
def splitSepAux (c : Char) (rest : List Char) : List Char → List (List Char)
  | [] => [[]]
  | a :: l =>
    if a == c && isPrefixB rest l then
      [] :: splitSepAux c rest (l.drop rest.length)
    else
      match splitSepAux c rest l with
      | [] => [[a]]
      | h :: t => (a :: h) :: t
termination_by l => l.length
decreasing_by
  · simp [List.length_drop]; omega
  · simp

/-- `String.prototype.split(sep)` for a non-empty separator string (the
engine splits on `","`, `"/"` and `"<br>"`; the empty-separator case of
JavaScript is not used by it). -/
def jsSplit (sep s : String) : List String :=
  match sep.data with
  | [] => s.data.map (fun ch => String.mk [ch])
  | c :: rest => (splitSepAux c rest s.data).map String.mk

/-! ## DictionaryService.determineVerbGroup / determineIrregular -/

/-- `DictionaryService.determineVerbGroup`: derive the verb group from the
`type` field by the source's if-chain of substring tests. -/
def determineVerbGroup (type : String) : String :=
  if jsIncludes type "#verbe/régulier/1" then "1"
  else if jsIncludes type "#verbe/régulier/2" then "2"
  else if jsIncludes type "#verbe/irrégulier/3/ir" then "3ir"
  else if jsIncludes type "#verbe/irrégulier/3/oir" then "3oir"
  else if jsIncludes type "#verbe/irrégulier/3/re" then "3re"
  else if jsIncludes type "#verbe/irrégulier/3" then "3"
  else if jsIncludes type "#verbe/irrégulier" then "i"
  else ""

/-- `DictionaryService.determineIrregular`.  The source guards with
`type.includes("#verbe/irrégulier")` and then matches the regular
expression `#verbe\/irrégulier(?:\/\d+)?`; the optional group may match
the empty string, so the regular expression succeeds exactly when the
guard does, and the function returns `"i"` exactly under the guard. -/
def determineIrregular (type : String) : String :=
  if jsIncludes type "#verbe/irrégulier" then "i" else ""

/-- `isPrefixB` decides the prefix decomposition. -/
theorem isPrefixB_iff (p l : List Char) :
    isPrefixB p l = true ↔ ∃ t, l = p ++ t := by
  induction p generalizing l with
  | nil => simp [isPrefixB]
  | cons a as ih =>
    cases l with
    | nil => simp [isPrefixB]
    | cons b bs =>
      simp only [isPrefixB, Bool.and_eq_true, beq_iff_eq, ih, List.cons_append,
        List.cons.injEq]
      constructor
      · rintro ⟨rfl, t, rfl⟩; exact ⟨t, rfl, rfl⟩
      · rintro ⟨t, rfl, rfl⟩; exact ⟨rfl, t, rfl⟩

/-- `isInfixB` decides the substring decomposition. -/
theorem isInfixB_iff (p l : List Char) :
    isInfixB p l = true ↔ ∃ s t, l = s ++ p ++ t := by
  induction l with
  | nil =>
    simp only [isInfixB, isPrefixB_iff]
    constructor
    · rintro ⟨t, ht⟩
      exact ⟨[], t, by simpa using ht⟩
    · rintro ⟨s, t, ht⟩
      rcases List.append_eq_nil.mp (List.append_eq_nil.mp ht.symm).1 with ⟨rfl, rfl⟩
      exact ⟨t, by simpa using ht⟩
  | cons b bs ih =>
    simp only [isInfixB, Bool.or_eq_true, isPrefixB_iff, ih]
    constructor
    · rintro (⟨t, ht⟩ | ⟨s, t, ht⟩)
      · exact ⟨[], t, by simpa using ht⟩
      · exact ⟨b :: s, t, by simp [ht]⟩
    · rintro ⟨s, t, ht⟩
      cases s with
      | nil => exact Or.inl ⟨t, by simpa using ht⟩
      | cons x xs =>
        simp only [List.cons_append, List.cons.injEq] at ht
        exact Or.inr ⟨xs, t, ht.2⟩

/-- Substring occurrence is transitive through an intermediate string. -/
theorem jsIncludes_trans {t p q : String}
    (hpq : jsIncludes p q = true) (htp : jsIncludes t p = true) :
    jsIncludes t q = true := by
  unfold jsIncludes at *
  rw [isInfixB_iff] at hpq htp ⊢
  obtain ⟨s₁, t₁, h₁⟩ := hpq
  obtain ⟨s₂, t₂, h₂⟩ := htp
  refine ⟨s₂ ++ s₁, t₁ ++ t₂, ?_⟩
  rw [h₂, h₁]; simp

/-- C10: the two verb-derivation functions are mutually consistent —
whenever `determineVerbGroup` returns one of the irregular groups
`"3ir"`, `"3oir"`, `"3re"`, `"3"` or `"i"`, `determineIrregular` returns
`"i"`, so a derived verb entry never carries an irregular `Group` with an
empty `Irregular` field. -/
theorem c10_group_irregular_consistent (t : String)
    (h : determineVerbGroup t = "3ir" ∨ determineVerbGroup t = "3oir" ∨
         determineVerbGroup t = "3re" ∨ determineVerbGroup t = "3" ∨
         determineVerbGroup t = "i") :
    determineIrregular t = "i" := by
  unfold determineVerbGroup at h
  unfold determineIrregular
  split_ifs with hbase
  · rfl
  · exfalso
    split_ifs at h with h1 h2 h3 h4 h5 h6
    · simp at h
    · simp at h
    · exact hbase (jsIncludes_trans (p := "#verbe/irrégulier/3/ir") (by decide) h3)
    · exact hbase (jsIncludes_trans (p := "#verbe/irrégulier/3/oir") (by decide) h4)
    · exact hbase (jsIncludes_trans (p := "#verbe/irrégulier/3/re") (by decide) h5)
    · exact hbase (jsIncludes_trans (p := "#verbe/irrégulier/3") (by decide) h6)
    · simp at h

/-- Witness for C10 at the concrete type string `"#verbe/irrégulier"`. -/
theorem c10_group_irregular_consistent_witness :
    determineIrregular "#verbe/irrégulier" = "i" :=
  c10_group_irregular_consistent "#verbe/irrégulier"
    (Or.inr (Or.inr (Or.inr (Or.inr (by decide)))))

/-- C6: for the type string `"#verbe/irrégulier/3/oir"` the verb
derivation returns `Group = "3oir"` and `Irregular = "i"`; the earlier
precedence rules (`…/3/ir`, `…/3`) do not capture it and it does not fall
through to `"3"` or `"i"` alone. -/
theorem c6_verb_group_precedence_oir :
    determineVerbGroup "#verbe/irrégulier/3/oir" = "3oir" ∧
    determineIrregular "#verbe/irrégulier/3/oir" = "i" := by
  constructor <;> decide

/-! ## FilterService.applyFilters -/

/-- The entry record as `FilterService.applyFilters` reads it: the
`DictionaryEntry` fields it filters on, plus the derived verb fields
`Group` and `Irregular` that the source reaches through a cast of the
same record. -/
structure VerbEntry where
  targetWord : String
  sourceWord : String
  type : String
  context : String
  revision : String
  rating : String
  Group : String
  Irregular : String
deriving DecidableEq, Repr

/-- `FilterState` (a `Partial` record in the source): `none` models an
absent (`undefined`) filter. -/
structure FilterState where
  targetWord : Option String
  sourceWord : Option String
  type : Option String
  context : Option String
  revision : Option String
  rating : Option String
  group : Option String
  irregular : Option String
deriving DecidableEq, Repr

/-- One step of the source's filter pipeline: `filters.x && filters.x
!== "all"` guards each stage (an absent or empty or `"all"` filter is
skipped), and an active stage keeps the entries satisfying `p`. -/
def guardFilter (o : Option String) (p : String → VerbEntry → Bool)
    (l : List VerbEntry) : List VerbEntry :=
  match o with
  | none => l
  | some s => if s != "" && s != "all" then l.filter (p s) else l

/-- `FilterService.applyFilters`: the source's pipeline in source order —
substring tests (lower-cased) for targetWord/sourceWord/type/context,
exact match for revision and rating, exact match for the verb
`group` filter, and for the verb `irregular` filter exact match or the
`"i1"` sentinel, which also accepts any `Irregular` starting with
`"i"`. -/
def applyFilters (entries : List VerbEntry) (filters : FilterState) :
    List VerbEntry :=
  let r1 := guardFilter filters.targetWord
    (fun s e => jsIncludes (jsToLower e.targetWord) (jsToLower s)) entries
  let r2 := guardFilter filters.sourceWord
    (fun s e => jsIncludes (jsToLower e.sourceWord) (jsToLower s)) r1
  let r3 := guardFilter filters.type
    (fun s e => jsIncludes (jsToLower e.type) (jsToLower s)) r2
  let r4 := guardFilter filters.context
    (fun s e => jsIncludes (jsToLower e.context) (jsToLower s)) r3
  let r5 := guardFilter filters.revision (fun s e => e.revision == s) r4
  let r6 := guardFilter filters.rating (fun s e => e.rating == s) r5
  let r7 := guardFilter filters.group (fun s e => e.Group == s) r6
  guardFilter filters.irregular
    (fun s e => e.Irregular == s || (s == "i1" && jsStartsWith e.Irregular "i")) r7

/-- A filter state with only the verb `group` filter active. -/
def groupOnlyFilter (s : String) : FilterState :=
  ⟨none, none, none, none, none, none, some s, none⟩

/-- A filter state with only the verb `irregular` filter active. -/
def irregularOnlyFilter (s : String) : FilterState :=
  ⟨none, none, none, none, none, none, none, some s⟩

/-- An irregular verb entry (`Group = "3ir"`, `Irregular = "i"`, as the
verb derivation produces for type `#verbe/irrégulier/3/ir`). -/
def irregularVerbRow : VerbEntry :=
  ⟨"aller", "ir", "#verbe/irrégulier/3/ir", "", "new", "", "3ir", "i"⟩

/-- C5 counterexample: with the *group* filter set to the sentinel
`"i1"`, `applyFilters` drops an entry whose derived `Irregular` starts
with `"i"` (the group stage is a plain exact match, so nothing has
`Group = "i1"`), while the claim predicts that the entry is kept. -/
theorem c5_group_sentinel_counterexample :
    applyFilters [irregularVerbRow] (groupOnlyFilter "i1") = [] ∧
    jsStartsWith irregularVerbRow.Irregular "i" = true ∧
    applyFilters [irregularVerbRow] (groupOnlyFilter "i1") ≠ [irregularVerbRow] := by
  refine ⟨by decide, by decide, ?_⟩
  intro h
  have : ([] : List VerbEntry) = [irregularVerbRow] := by
    rw [← h]; decide
  simp at this

/-- C5 (amended): the verb `group` filter is always an exact match on the
derived `Group` field — including for the value `"i1"` — and the `"i1"`
sentinel belongs to the *irregular* filter: with the irregular filter set
to `"i1"`, `applyFilters` keeps exactly the entries whose derived
`Irregular` starts with `"i"`. -/
theorem c5_group_exact_irregular_sentinel (entries : List VerbEntry)
    (s : String) (hne : s ≠ "") (hna : s ≠ "all") :
    applyFilters entries (groupOnlyFilter s) =
      entries.filter (fun e => e.Group == s) ∧
    applyFilters entries (irregularOnlyFilter "i1") =
      entries.filter (fun e => jsStartsWith e.Irregular "i") := by
  constructor
  · simp only [applyFilters, groupOnlyFilter, guardFilter]
    rw [if_pos]
    simp [bne_iff_ne, hne, hna]
  · simp only [applyFilters, irregularOnlyFilter, guardFilter]
    rw [if_pos]
    · apply List.filter_congr
      intro e _
      by_cases h : e.Irregular = "i1"
      · simp [h, jsStartsWith, isPrefixB]
      · simp [h]
    · decide

/-- Witness for C5 (amended) at a concrete entry list and a concrete
non-empty, non-`"all"` group filter value. -/
theorem c5_group_exact_irregular_sentinel_witness :
    applyFilters [irregularVerbRow] (groupOnlyFilter "3ir") =
      List.filter (fun e => e.Group == "3ir") [irregularVerbRow] ∧
    applyFilters [irregularVerbRow] (irregularOnlyFilter "i1") =
      List.filter (fun e => jsStartsWith e.Irregular "i") [irregularVerbRow] :=
  c5_group_exact_irregular_sentinel [irregularVerbRow] "3ir"
    (by decide) (by decide)

/-! ## OpenAIService polling loops -/

/-- The continuation condition of both run-status polling loops:
`status === "in_progress" || status === "queued"`. -/
def pollCond (status : String) : Bool :=
  status == "in_progress" || status == "queued"

/-- `OpenAIService.askQuestion`'s polling loop.  `statuses i` is the
status returned by the i-th status request; `status` and `attempts` are
the loop variables (`attempts` starts at 0, `maxAttempts` is the literal
60).  Returns the final status and the number of attempts made. -/
def askQuestionLoop (statuses : Nat → String) (status : String)
    (attempts : Nat) : String × Nat :=
  if pollCond status && decide (attempts < 60) then
    askQuestionLoop statuses (statuses attempts) (attempts + 1)
  else
    (status, attempts)
termination_by 60 - attempts
decreasing_by
  rename_i h
  simp only [Bool.and_eq_true, decide_eq_true_eq] at h
  omega

/-- `OpenAIService.askAssistant`'s polling loop, step-indexed: the value
of the `status` variable after `n` iterations of
`while (status === "in_progress" || status === "queued")`.  The variable
is initialised to `"in_progress"`; while the condition holds, iteration
`n` overwrites it with the n-th status response; once the condition
fails the loop has exited and the value is frozen.  The source loop has
no attempt counter and no ceiling. -/
def askAssistantStatus (statuses : Nat → String) : Nat → String
  | 0 => "in_progress"
  | n + 1 =>
    let prev := askAssistantStatus statuses n
    if pollCond prev then statuses n else prev

/-- Helper: the bounded loop never exceeds 60 attempts, for any starting
attempt count within the budget. -/
theorem askQuestionLoop_le (d : Nat) :
    ∀ (statuses : Nat → String) (status : String) (attempts : Nat),
      60 - attempts = d → attempts ≤ 60 →
      (askQuestionLoop statuses status attempts).2 ≤ 60 := by
  induction d with
  | zero =>
    intro statuses status attempts hd hle
    have : attempts = 60 := by omega
    subst this
    rw [askQuestionLoop]
    simp
  | succ d ih =>
    intro statuses status attempts hd hle
    rw [askQuestionLoop]
    by_cases hc : pollCond status && decide (attempts < 60)
    · rw [if_pos hc]
      simp only [Bool.and_eq_true, decide_eq_true_eq] at hc
      exact ih statuses (statuses attempts) (attempts + 1) (by omega) (by omega)
    · rw [if_neg hc]
      exact hle

/-- C9: the `askQuestion` polling loop is hard-bounded — started at
attempt 0 it makes at most 60 attempts for every sequence of status
responses — but the `askAssistant` polling loop has no ceiling: against a
run whose status endpoint answers `"in_progress"` on every poll, the loop
condition still holds after every number of iterations, so the loop never
exits. -/
theorem c9_polling_bounds :
    (∀ (statuses : Nat → String) (init : String),
      (askQuestionLoop statuses init 0).2 ≤ 60) ∧
    (∀ n : Nat,
      pollCond (askAssistantStatus (fun _ => "in_progress") n) = true) := by
  constructor
  · intro statuses init
    exact askQuestionLoop_le 60 statuses init 0 rfl (by omega)
  · intro n
    induction n with
    | zero => decide
    | succ n ih =>
      show pollCond (if pollCond (askAssistantStatus _ n) then _ else _) = true
      rw [if_pos ih]
      decide

/-! ## TermService: inline-field and front-matter mutation -/

/-- Drop an expected literal prefix, returning the remainder on match. -/
def dropPre : List Char → List Char → Option (List Char)
  | [], l => some l
  | _ :: _, [] => none
  | a :: as, b :: bs => if a == b then dropPre as bs else none

/-- Matcher for `TermService.updateInlineFieldValue`'s line pattern
`^<fieldName>\s?::.*` (field name, at most one whitespace character,
then `::`): returns the text after the `::` when the line matches. -/
def afterFieldColons (field line : String) : Option (List Char) :=
  match dropPre field.data line.data with
  | none => none
  | some rest =>
    match rest with
    | ':' :: ':' :: v => some v
    | c :: ':' :: ':' :: v => if jsWs c then some v else none
    | _ => none

/-- The replacement step of `TermService.updateInlineFieldValue` inside
`vault.process`: find the first line matching `^<fieldName>\s?::.*`; on a
blank-value update without `allowClear` (`skip`), leave the file alone if
that line's current value (the text after `::`, trimmed — the source
strips the prefix with a case-insensitive regex, but the matched prefix
is literally the field name followed by `::`, so the strip is exact) is
non-empty; otherwise replace the whole matched line by
`<fieldName>:: <normalized>`.  If no line matches, the content is
returned unchanged — this branch performs no insertion. -/
def updateInlineLines (field normalized : String) (skip : Bool) :
    List String → List String
  | [] => []
  | line :: ls =>
    match afterFieldColons field line with
    | some v =>
      if skip && (jsTrim ⟨v⟩ != "") then line :: ls
      else (field ++ ":: " ++ normalized) :: ls
    | none => line :: updateInlineLines field normalized skip ls

/-- `TermService.updateInlineFieldValue` as a pure content transform on
the lines of the target file: `normalized` is the trimmed incoming value
and `skip` (`shouldSkipClear`) is set when `allowClear` is off and the
incoming value is blank. -/
def updateInlineFieldValue (field value : String) (allowClear : Bool)
    (lines : List String) : List String :=
  let normalized := jsTrim value
  let skip := !allowClear && (normalized == "")
  updateInlineLines field normalized skip lines

/-- A front-matter value as `TermService.storeFrontmatterProperty`
inspects it: a string, or a non-string value (number, list, …) whose
only role in the source is to fail the `typeof current === "string"`
test. -/
inductive FmValue where
  | str (s : String)
  | nonstring
deriving DecidableEq, Repr

/-- `TermService.storeFrontmatterProperty` as a pure transform of the
front-matter map: on a blank-value update without `allowClear`, an
existing non-blank string value and any existing non-string value are
left untouched; in every other case the key is assigned the trimmed
incoming value. -/
def storeFrontmatterProperty (key value : String) (allowClear : Bool)
    (fm : String → Option FmValue) : String → Option FmValue :=
  let normalized := jsTrim value
  let skip := !allowClear && (normalized == "")
  let assign : String → Option FmValue :=
    fun k => if k == key then some (.str normalized) else fm k
  if skip then
    match fm key with
    | some (.str s) => if jsTrim s != "" then fm else assign
    | some .nonstring => fm
    | none => assign
  else assign

/-- Matcher for `TermService.getInlineFieldValue`'s pattern
`^<fieldName>\s*::[^\S\n]*(.*)$` on one line: field name, any run of
whitespace, `::`; returns the trimmed text after the `::` (leading
whitespace is consumed by `[^\S\n]*`, and the capture is trimmed, which
together amount to trimming the remainder). -/
def fieldValueOnLine (field line : String) : Option String :=
  match dropPre field.data line.data with
  | none => none
  | some rest =>
    match rest.dropWhile jsWs with
    | ':' :: ':' :: v => some (jsTrim ⟨v⟩)
    | _ => none

/-- `TermService.getInlineFieldValue`: the first line matching the
pattern yields the field's current value; an empty capture (the regex
matched but nothing follows the `::`) yields `null`, and the search does
not continue past the first match. -/
def getInlineFieldValue (lines : List String) (field : String) :
    Option String :=
  match lines with
  | [] => none
  | line :: ls =>
    match fieldValueOnLine field line with
    | some v => if v == "" then none else some v
    | none => getInlineFieldValue ls field

/-- The `Examples` slice of `TermService.updateTermPageProperties`
(lines 165–180): given the current `Examples` inline value (as read by
`getInlineFieldValue`, so `none` or a non-empty trimmed string — the
function is nonetheless modelled on arbitrary `Option String` input,
mirroring the source's own guards) and the incoming `examples` value,
return the value written back to the `Examples` field, or `none` when no
write happens. -/
def examplesWrite (currentExamples : Option String)
    (examples : Option String) : Option String :=
  let normalized := match examples with
    | some s => jsTrim s
    | none => ""
  if normalized == "" then none
  else
    let count : Nat := match currentExamples with
      | none => 0
      | some s => (jsSplit "<br>" s).length
    if currentExamples == none || currentExamples == some "" ||
        decide (count < 3) then
      some (if count == 0 then normalized
            else (match currentExamples with
                  | none => ""
                  | some s => s) ++ "<br>" ++ normalized)
    else none

/-- If no line matches the field pattern, the rewrite leaves every line
unchanged (the source's replace finds no match and returns the data). -/
theorem updateInlineLines_nomatch (field normalized : String) (skip : Bool)
    (lines : List String) (h : ∀ l ∈ lines, afterFieldColons field l = none) :
    updateInlineLines field normalized skip lines = lines := by
  induction lines with
  | nil => rfl
  | cons l ls ih =>
    have hl := h l (by simp)
    simp only [updateInlineLines, hl]
    rw [ih (fun x hx => h x (by simp [hx]))]

/-- On a skipping update (blank value, no `allowClear`), a first matching
line with a non-blank current value freezes the whole content. -/
theorem updateInlineLines_skip_preserve (field normalized : String)
    (pre post : List String) (line : String) (v : List Char)
    (hpre : ∀ l ∈ pre, afterFieldColons field l = none)
    (hline : afterFieldColons field line = some v)
    (hv : jsTrim ⟨v⟩ ≠ "") :
    updateInlineLines field normalized true (pre ++ line :: post) =
      pre ++ line :: post := by
  induction pre with
  | nil =>
    simp only [List.nil_append, updateInlineLines, hline]
    rw [if_pos]
    simp [bne_iff_ne, hv]
  | cons p ps ih =>
    have hp := hpre p (by simp)
    simp only [List.cons_append, updateInlineLines, hp]
    rw [List.append_eq, ih (fun x hx => hpre x (by simp [hx]))]

/-- On a non-skipping update, the first matching line is replaced by
`<fieldName>:: <normalized>` and nothing else changes. -/
theorem updateInlineLines_replace (field normalized : String)
    (pre post : List String) (line : String) (v : List Char)
    (hpre : ∀ l ∈ pre, afterFieldColons field l = none)
    (hline : afterFieldColons field line = some v) :
    updateInlineLines field normalized false (pre ++ line :: post) =
      pre ++ (field ++ ":: " ++ normalized) :: post := by
  induction pre with
  | nil =>
    simp [updateInlineLines, hline]
  | cons p ps ih =>
    have hp := hpre p (by simp)
    simp only [List.cons_append, updateInlineLines, hp]
    rw [List.append_eq, ih (fun x hx => hpre x (by simp [hx]))]

/-- C2: a blank (empty after trimming) incoming value with `allowClear`
off never erases an existing non-blank value — the inline rewrite leaves
the file content unchanged when the first matching field line carries a
non-blank value, and the front-matter write leaves the map unchanged when
the key holds a non-blank string — while with `allowClear` set the same
blank update does clear the field (inline: the line becomes
`<fieldName>:: `; front matter: the key is assigned the empty string). -/
theorem c2_do_not_clobber :
    (∀ (field value : String) (pre post : List String) (line : String)
        (v : List Char),
      jsTrim value = "" →
      (∀ l ∈ pre, afterFieldColons field l = none) →
      afterFieldColons field line = some v →
      jsTrim ⟨v⟩ ≠ "" →
      updateInlineFieldValue field value false (pre ++ line :: post) =
        pre ++ line :: post) ∧
    (∀ (key value s : String) (fm : String → Option FmValue),
      jsTrim value = "" →
      fm key = some (.str s) →
      jsTrim s ≠ "" →
      storeFrontmatterProperty key value false fm = fm) ∧
    (∀ (field value : String) (pre post : List String) (line : String)
        (v : List Char),
      jsTrim value = "" →
      (∀ l ∈ pre, afterFieldColons field l = none) →
      afterFieldColons field line = some v →
      updateInlineFieldValue field value true (pre ++ line :: post) =
        pre ++ (field ++ ":: " ++ jsTrim value) :: post) ∧
    (∀ (key value : String) (fm : String → Option FmValue),
      jsTrim value = "" →
      storeFrontmatterProperty key value true fm key =
        some (.str (jsTrim value))) := by
  refine ⟨?_, ?_, ?_, ?_⟩
  · intro field value pre post line v hval hpre hline hv
    simp only [updateInlineFieldValue, hval]
    rw [show (!false && (("" : String) == "")) = true by decide]
    exact updateInlineLines_skip_preserve field "" pre post line v
      hpre hline hv
  · intro key value s fm hval hkey hs
    simp only [storeFrontmatterProperty, hval]
    rw [show (!false && (("" : String) == "")) = true by decide]
    simp only [if_true, hkey]
    rw [if_pos]
    simp [bne_iff_ne, hs]
  · intro field value pre post line v hval hpre hline
    simp only [updateInlineFieldValue, Bool.not_true, Bool.false_and]
    exact updateInlineLines_replace field (jsTrim value) pre post line v
      hpre hline
  · intro key value fm hval
    simp only [storeFrontmatterProperty, Bool.not_true, Bool.false_and]
    simp

/-- Witness for C2 at a concrete file (`["Context:: keep me"]`), a
concrete front-matter map and the blank incoming value `" "`. -/
theorem c2_do_not_clobber_witness :
    (updateInlineFieldValue "Context" " " false ["Context:: keep me"] =
      ["Context:: keep me"]) ∧
    (storeFrontmatterProperty "Spanish" " " false
        (fun k => if k == "Spanish" then some (.str "hola") else none) =
      (fun k => if k == "Spanish" then some (.str "hola") else none)) ∧
    (updateInlineFieldValue "Context" " " true ["Context:: keep me"] =
      ["Context:: " ++ jsTrim " "]) ∧
    (storeFrontmatterProperty "Spanish" " " true
        (fun k => if k == "Spanish" then some (.str "hola") else none)
        "Spanish" = some (.str (jsTrim " "))) := by
  refine ⟨?_, ?_, ?_, ?_⟩
  · exact c2_do_not_clobber.1 "Context" " " [] [] "Context:: keep me"
      " keep me".data (by decide) (by simp) (by decide) (by decide)
  · exact c2_do_not_clobber.2.1 "Spanish" " " "hola"
      (fun k => if k == "Spanish" then some (.str "hola") else none)
      (by decide) (by decide) (by decide)
  · exact c2_do_not_clobber.2.2.1 "Context" " " [] [] "Context:: keep me"
      " keep me".data (by decide) (by simp) (by decide)
  · exact c2_do_not_clobber.2.2.2 "Spanish" " "
      (fun k => if k == "Spanish" then some (.str "hola") else none)
      (by decide)

/-- Character class of an inline-field key, `[A-Za-z_-]`. -/
def isFieldNameChar (c : Char) : Bool :=
  ('A' ≤ c && c ≤ 'Z') || ('a' ≤ c && c ≤ 'z') || c == '_' || c == '-'

/-- A line opening an inline field (`^[A-Za-z_-]+::`), the shape the
spec's insertion rule keys on. -/
def isInlineFieldLine (line : String) : Bool :=
  match line.data.dropWhile isFieldNameChar with
  | ':' :: ':' :: _ => !(line.data.takeWhile isFieldNameChar).isEmpty
  | _ => false

/-- Modelled from the spec: the not-found branch of the inline-field
rewrite algorithm of §4.6 — "insert the field as a new inline line
immediately after the last existing inline-field line (or append at
document end if none exist)".  The recursion returns `some` when an
inline-field line exists in the suffix, splicing the new line after the
last one. -/
def insertAfterLastInlineAux (newLine : String) :
    List String → Option (List String)
  | [] => none
  | l :: ls =>
    match insertAfterLastInlineAux newLine ls with
    | some ls' => some (l :: ls')
    | none =>
      if isInlineFieldLine l then some (l :: newLine :: ls) else none

/-- Modelled from the spec: insertion entry point (append at the end if
no inline-field line exists). -/
def insertAfterLastInline (newLine : String) (lines : List String) :
    List String :=
  match insertAfterLastInlineAux newLine lines with
  | some r => r
  | none => lines ++ [newLine]

/-- Modelled from the spec: replace the whole first line matching
`^<fieldName>\s?::.*` by the new line. -/
def replaceFirstMatching (field newLine : String) :
    List String → List String
  | [] => []
  | l :: ls =>
    if (afterFieldColons field l).isSome then newLine :: ls
    else l :: replaceFirstMatching field newLine ls

/-- Modelled from the spec: the full inline-field rewrite algorithm of
§4.6 — locate the first line matching `^<fieldName>\s?::.*`; if found,
replace that whole line with `fieldName:: <newValue>`; if not found,
insert the field after the last inline-field line or append at document
end. -/
def specInlineRewrite (field value : String) (lines : List String) :
    List String :=
  if lines.any (fun l => (afterFieldColons field l).isSome) then
    replaceFirstMatching field (field ++ ":: " ++ value) lines
  else
    insertAfterLastInline (field ++ ":: " ++ value) lines

/-- C3 counterexample: on a file with no `Type` field line, the engine's
rewrite (`TermService.updateInlineFieldValue`) leaves the content
unchanged, while the claim's algorithm inserts the new inline line; the
two differ at this concrete input, so the claim as stated is false of
the code. -/
theorem c3_inline_rewrite_counterexample :
    updateInlineFieldValue "Type" "x" true ["hello"] = ["hello"] ∧
    specInlineRewrite "Type" "x" ["hello"] = ["hello", "Type:: x"] ∧
    updateInlineFieldValue "Type" "x" true ["hello"] ≠
      specInlineRewrite "Type" "x" ["hello"] := by
  refine ⟨by decide, by decide, ?_⟩
  intro h
  rw [show updateInlineFieldValue "Type" "x" true ["hello"] = ["hello"]
    by decide] at h
  rw [show specInlineRewrite "Type" "x" ["hello"] = ["hello", "Type:: x"]
    by decide] at h
  simp at h

/-- C3 (amended): the inline rewrite locates the first line matching
`^<fieldName>\s?::.*` (case-sensitive field name, at most one whitespace
character before `::`) and, when the update is not a skipped blank-value
update, replaces that whole line with `fieldName:: <trimmed newValue>`;
when no such line exists, the content is left unchanged — no insertion
is performed. -/
theorem c3_inline_rewrite_amended :
    (∀ (field value : String) (allowClear : Bool) (lines : List String),
      (∀ l ∈ lines, afterFieldColons field l = none) →
      updateInlineFieldValue field value allowClear lines = lines) ∧
    (∀ (field value : String) (allowClear : Bool) (pre post : List String)
        (line : String) (v : List Char),
      (allowClear = true ∨ jsTrim value ≠ "") →
      (∀ l ∈ pre, afterFieldColons field l = none) →
      afterFieldColons field line = some v →
      updateInlineFieldValue field value allowClear (pre ++ line :: post) =
        pre ++ (field ++ ":: " ++ jsTrim value) :: post) := by
  constructor
  · intro field value allowClear lines h
    exact updateInlineLines_nomatch field (jsTrim value) _ lines h
  · intro field value allowClear pre post line v hskip hpre hline
    have hfalse : (!allowClear && (jsTrim value == "")) = false := by
      rcases hskip with h | h
      · simp [h]
      · simp [bne_iff_ne, h]
    show updateInlineLines field (jsTrim value)
      (!allowClear && (jsTrim value == "")) (pre ++ line :: post) = _
    rw [hfalse]
    exact updateInlineLines_replace field (jsTrim value) pre post line v
      hpre hline

/-- Witness for C3 (amended) at concrete contents: a file without the
field line (left unchanged) and a file whose `Type` line is replaced. -/
theorem c3_inline_rewrite_amended_witness :
    updateInlineFieldValue "Type" "x" false ["hello"] = ["hello"] ∧
    updateInlineFieldValue "Type" " #nom " false ["Type:: old", "body"] =
      [] ++ ("Type" ++ ":: " ++ jsTrim " #nom ") :: ["body"] := by
  constructor
  · exact c3_inline_rewrite_amended.1 "Type" "x" false ["hello"]
      (by intro l hl; simp at hl; subst hl; decide)
  · exact c3_inline_rewrite_amended.2 "Type" " #nom " false [] ["body"]
      "Type:: old" " old".data (Or.inr (by decide)) (by simp) (by decide)

/-- The split scanner never produces an empty list of parts. -/
theorem splitSepAux_ne_nil (c : Char) (rest : List Char) :
    ∀ l, splitSepAux c rest l ≠ [] := by
  intro l
  induction l using splitSepAux.induct c rest with
  | case1 => rw [splitSepAux]; simp
  | case2 a l hcond ih =>
    rw [splitSepAux, if_pos hcond]
    simp
  | case3 a l hcond heq ih =>
    rw [splitSepAux, if_neg hcond]
    exact absurd heq ih
  | case4 a l hcond h t heq ih =>
    rw [splitSepAux, if_neg hcond, heq]
    simp

/-- A list is a prefix of itself extended by anything. -/
theorem isPrefixB_append_self (p t : List Char) :
    isPrefixB p (p ++ t) = true := by
  rw [isPrefixB_iff]; exact ⟨t, rfl⟩

/-- If the separator occurs nowhere in the input, the scanner returns
the whole input as the single part. -/
theorem splitSepAux_sepFree (c : Char) (rest : List Char) :
    ∀ l, isInfixB (c :: rest) l = false → splitSepAux c rest l = [l] := by
  intro l
  induction l with
  | nil => intro _; rw [splitSepAux]
  | cons a l ih =>
    intro h
    simp only [isInfixB, Bool.or_eq_false_iff] at h
    obtain ⟨hpre, hinf⟩ := h
    have hcond : (a == c && isPrefixB rest l) = false := by
      simp only [isPrefixB, Bool.and_eq_false_iff] at hpre ⊢
      rcases hpre with h1 | h1
      · left
        cases hac : a == c
        · rfl
        · exfalso
          have : a = c := by simpa using hac
          subst this
          simp at h1
      · right; exact h1
    rw [splitSepAux, if_neg (by simp [hcond]), ih hinf]

/-- If the separator occurs somewhere in the input, the scanner produces
at least two parts. -/
theorem splitSepAux_infix_len (c : Char) (rest : List Char) :
    ∀ l, isInfixB (c :: rest) l = true → 2 ≤ (splitSepAux c rest l).length := by
  intro l
  induction l with
  | nil =>
    intro h
    simp [isInfixB, isPrefixB] at h
  | cons a l ih =>
    intro h
    simp only [isInfixB, Bool.or_eq_true] at h
    by_cases hcond : (a == c && isPrefixB rest l) = true
    · rw [splitSepAux, if_pos hcond]
      have := splitSepAux_ne_nil c rest (l.drop rest.length)
      have hlen := List.length_pos.mpr this
      simp only [List.length_cons]
      omega
    · have hstep : isInfixB (c :: rest) l = true := by
        rcases h with h | h
        · exfalso
          simp only [isPrefixB, Bool.and_eq_true, beq_iff_eq] at h hcond
          exact hcond ⟨by simp [h.1], h.2⟩
        · exact h
      rw [splitSepAux, if_neg hcond]
      cases heq : splitSepAux c rest l with
      | nil => exact absurd heq (splitSepAux_ne_nil c rest l)
      | cons x xs =>
        have := ih hstep
        rw [heq] at this
        simp only [List.length_cons] at this ⊢
        omega

/-- Splitting on `"<br>"` across an explicit separator: if the prefix
contains no separator, the scanner cuts exactly at the inserted
separator (for the four-character separator `<br>` no occurrence can
straddle the boundary). -/
theorem splitSepAux_br_append :
    ∀ s t : List Char, isInfixB ['<', 'b', 'r', '>'] s = false →
      splitSepAux '<' ['b', 'r', '>'] (s ++ ['<', 'b', 'r', '>'] ++ t) =
        s :: splitSepAux '<' ['b', 'r', '>'] t := by
  intro s
  induction s with
  | nil =>
    intro t _
    simp only [List.nil_append, List.cons_append]
    rw [splitSepAux]
    rw [if_pos (by simp [isPrefixB])]
    have hdrop : ('b' :: 'r' :: '>' :: t).drop
        (['b', 'r', '>'] : List Char).length = t := by
      simp
    rw [hdrop]
  | cons a s ih =>
    intro t h
    simp only [isInfixB, Bool.or_eq_false_iff] at h
    obtain ⟨hpre, hinf⟩ := h
    have hcond : (a == '<' &&
        isPrefixB ['b', 'r', '>'] (s ++ ['<', 'b', 'r', '>'] ++ t)) = false := by
      cases hac : a == '<'
      · simp
      · have ha : a = '<' := by simpa using hac
        subst ha
        simp only [Bool.true_and]
        rcases s with _ | ⟨x, _ | ⟨y, _ | ⟨z, s1⟩⟩⟩
        · simp [isPrefixB]
        · simp [isPrefixB]
        · simp [isPrefixB]
        · simp only [List.cons_append, isPrefixB] at hpre ⊢
          simpa using hpre
    rw [List.append_assoc] at hcond
    simp only [List.cons_append, List.nil_append] at hcond
    rw [List.cons_append, List.cons_append, splitSepAux]
    rw [if_neg (by simp [hcond])]
    cases heq : splitSepAux '<' ['b', 'r', '>'] (s ++ ['<', 'b', 'r', '>'] ++ t) with
    | nil => exact absurd heq (splitSepAux_ne_nil _ _ _)
    | cons x xs =>
      rw [ih t hinf] at heq
      cases heq
      rfl

/-- `split("<br>")` on a string, reduced to the character scanner. -/
theorem jsSplit_br (s : String) :
    jsSplit "<br>" s =
      (splitSepAux '<' ['b', 'r', '>'] s.data).map String.mk := rfl

/-- A split always has at least one part. -/
theorem jsSplit_br_len_pos (s : String) : 1 ≤ (jsSplit "<br>" s).length := by
  rw [jsSplit_br, List.length_map]
  exact List.length_pos.mpr (splitSepAux_ne_nil _ _ _)

/-- A single-part split means the separator does not occur. -/
theorem jsSplit_br_one_sepFree (s : String)
    (h : (jsSplit "<br>" s).length = 1) :
    isInfixB ['<', 'b', 'r', '>'] s.data = false := by
  cases hb : isInfixB ['<', 'b', 'r', '>'] s.data
  · rfl
  · exfalso
    have := splitSepAux_infix_len '<' ['b', 'r', '>'] s.data hb
    rw [jsSplit_br, List.length_map] at h
    omega

/-- The append branch of the `Examples` update: with fewer than three
current examples and a non-blank incoming one, the written value is the
current value, the separator, and the trimmed incoming example. -/
theorem examplesWrite_append (cur ex : String)
    (h3 : (jsSplit "<br>" cur).length < 3) (hex : jsTrim ex ≠ "") :
    examplesWrite (some cur) (some ex) =
      some (cur ++ "<br>" ++ jsTrim ex) := by
  have hpos := jsSplit_br_len_pos cur
  have h0 : ((jsSplit "<br>" cur).length == 0) = false := by
    simp only [beq_eq_false_iff_ne, Ne]
    omega
  have hn : (jsTrim ex == "") = false := by simp [hex]
  have hlt : decide ((jsSplit "<br>" cur).length < 3) = true := by
    simpa using h3
  simp [examplesWrite, hn, hlt, h0]

/-- C4: the `Examples` accumulation cap of
`TermService.updateTermPageProperties` — a non-blank incoming example is
appended (with the `<br>` delimiter) whenever the current value splits
into fewer than three examples, a current value holding exactly one
example ends up holding exactly two, and a current value already holding
three or more examples is left unchanged (no write happens) even though
a new example was supplied. -/
theorem c4_examples_cap :
    (∀ (cur ex : String),
      (jsSplit "<br>" cur).length < 3 →
      jsTrim ex ≠ "" →
      examplesWrite (some cur) (some ex) =
        some (cur ++ "<br>" ++ jsTrim ex)) ∧
    (∀ (cur ex : String),
      (jsSplit "<br>" cur).length = 1 →
      jsTrim ex ≠ "" →
      jsIncludes (jsTrim ex) "<br>" = false →
      examplesWrite (some cur) (some ex) =
        some (cur ++ "<br>" ++ jsTrim ex) ∧
      (jsSplit "<br>" (cur ++ "<br>" ++ jsTrim ex)).length = 2) ∧
    (∀ (cur ex : String),
      3 ≤ (jsSplit "<br>" cur).length →
      examplesWrite (some cur) (some ex) = none) := by
  refine ⟨?_, ?_, ?_⟩
  · intro cur ex h3 hex
    exact examplesWrite_append cur ex h3 hex
  · intro cur ex h1 hex hnobr
    refine ⟨examplesWrite_append cur ex (by omega) hex, ?_⟩
    have hcur : isInfixB ['<', 'b', 'r', '>'] cur.data = false :=
      jsSplit_br_one_sepFree cur h1
    have hnorm : isInfixB ['<', 'b', 'r', '>'] (jsTrim ex).data = false := hnobr
    have hdata : (cur ++ "<br>" ++ jsTrim ex).data =
        cur.data ++ ['<', 'b', 'r', '>'] ++ (jsTrim ex).data := by
      rw [String.data_append, String.data_append]
    rw [jsSplit_br, hdata, splitSepAux_br_append cur.data (jsTrim ex).data hcur,
      splitSepAux_sepFree '<' ['b', 'r', '>'] (jsTrim ex).data hnorm]
    rfl
  · intro cur ex h3
    by_cases hnorm : jsTrim ex = ""
    · simp [examplesWrite, hnorm]
    · have hone : (jsSplit "<br>" "").length = 1 := by
        rw [jsSplit_br, List.length_map]
        rw [splitSepAux_sepFree '<' ['b', 'r', '>'] _ (by decide)]
        rfl
      have hcur : cur ≠ "" := by
        intro hc
        subst hc
        omega
      have hc2 : (some cur == some "") = false := by simp [hcur]
      have hc3 : decide ((jsSplit "<br>" cur).length < 3) = false := by
        simp only [decide_eq_false_iff_not, not_lt]
        omega
      simp [examplesWrite, hnorm, hc2, hc3]

unseal splitSepAux in
/-- Witness for C4 at concrete `Examples` values: one current example
plus a new one gives two, three current examples block the update. -/
theorem c4_examples_cap_witness :
    (examplesWrite (some "un chat") (some " le chien dort ") =
      some ("un chat" ++ "<br>" ++ jsTrim " le chien dort ") ∧
     (jsSplit "<br>"
        ("un chat" ++ "<br>" ++ jsTrim " le chien dort ")).length = 2) ∧
    examplesWrite (some "a<br>b<br>c") (some "d") = none := by
  constructor
  · exact c4_examples_cap.2.1 "un chat" " le chien dort "
      (by decide) (by decide) (by decide)
  · exact c4_examples_cap.2.2 "a<br>b<br>c" "d" (by decide)

/-! ## DictionaryService.parseFileToEntry: revision normalization -/

/-- One line of `DictionaryService.getInlineFields`: the pattern
`^([A-Za-z_-]+)::\s*(.*)$` — a non-empty run of field-name characters
immediately followed by `::`; the value is the remainder with the
leading whitespace consumed by `\s*` and the capture trimmed, which
together trim the remainder. -/
def parseInlineLine (line : String) : Option (String × String) :=
  match line.data.takeWhile isFieldNameChar,
        line.data.dropWhile isFieldNameChar with
  | [], _ => none
  | name, ':' :: ':' :: v => some (String.mk name, jsTrim (String.mk v))
  | _, _ => none

/-- The inline-field map of `DictionaryService.getInlineFields` at one
key: the source assigns `fields[name] = value` per matching line, so a
later line for the same name overwrites an earlier one and a lookup
yields the last occurrence. -/
def inlineFieldsLookup (lines : List String) (key : String) :
    Option String :=
  (((lines.filterMap parseInlineLine).filter (fun p => p.1 == key)).getLast?).map
    (fun p => p.2)

/-- The revision slice of `DictionaryService.parseFileToEntry` (lines
170–182): candidates are the inline `Revision`/`revision` fields and the
front-matter `Revision`/`revision` keys in that order; the first
non-blank candidate is normalized (`"new"` case-insensitively, otherwise
the trimmed original); without one the sentinel is `"new"`.  Front
matter is modelled post-`String(v)` coercion, as the map from key to the
string image of its value. -/
def revisionOf (lines : List String) (fm : String → Option String) :
    String :=
  let cands := [inlineFieldsLookup lines "Revision",
                inlineFieldsLookup lines "revision",
                fm "Revision", fm "revision"]
  match (cands.filterMap id).find? (fun v => jsTrim v != "") with
  | some v => if jsToLower (jsTrim v) == "new" then "new" else jsTrim v
  | none => "new"

/-- C7: revision normalization — a note with no `Revision` field of any
capitalization anywhere (inline or front matter) yields `"new"`; a note
whose inline `Revision` field reads `2` yields the preserved string
`"2"`; and whenever the first non-blank candidate lower-cases (after
trimming) to `"new"`, the result is `"new"`. -/
theorem c7_revision_normalization :
    (∀ (lines : List String) (fm : String → Option String),
      (∀ k, jsToLower k = "revision" →
        inlineFieldsLookup lines k = none ∧ fm k = none) →
      revisionOf lines fm = "new") ∧
    (∀ (lines : List String) (fm : String → Option String),
      inlineFieldsLookup lines "Revision" = some "2" →
      revisionOf lines fm = "2") ∧
    (∀ (lines : List String) (fm : String → Option String) (v : String),
      ([inlineFieldsLookup lines "Revision",
        inlineFieldsLookup lines "revision",
        fm "Revision", fm "revision"].filterMap id).find?
          (fun w => jsTrim w != "") = some v →
      jsToLower (jsTrim v) = "new" →
      revisionOf lines fm = "new") := by
  refine ⟨?_, ?_, ?_⟩
  · intro lines fm h
    have h1 := h "Revision" (by decide)
    have h2 := h "revision" (by decide)
    simp only [revisionOf, h1.1, h1.2, h2.1, h2.2]
    rfl
  · intro lines fm h
    simp only [revisionOf, h]
    rw [show List.filterMap id
        [some "2", inlineFieldsLookup lines "revision",
         fm "Revision", fm "revision"] =
      "2" :: List.filterMap id
        [inlineFieldsLookup lines "revision",
         fm "Revision", fm "revision"] from rfl]
    rw [List.find?_cons_of_pos _ (by decide)]
    decide
  · intro lines fm v hfind hlow
    simp only [revisionOf, hfind]
    rw [if_pos (by simp [hlow])]

/-- Witness for C7 at three concrete notes: no revision field, inline
`Revision:: 2`, and inline `Revision:: NEW`. -/
theorem c7_revision_normalization_witness :
    revisionOf [] (fun _ => none) = "new" ∧
    revisionOf ["Revision:: 2"] (fun _ => none) = "2" ∧
    revisionOf ["Revision:: NEW"] (fun _ => none) = "new" := by
  refine ⟨?_, ?_, ?_⟩
  · exact c7_revision_normalization.1 [] (fun _ => none)
      (fun k _ => ⟨rfl, rfl⟩)
  · exact c7_revision_normalization.2.1 ["Revision:: 2"] (fun _ => none)
      (by decide)
  · exact c7_revision_normalization.2.2 ["Revision:: NEW"] (fun _ => none)
      "NEW" (by decide) (by decide)

/-! ## FilterService.getUniqueValues -/

/-- The accumulation of `FilterService.generateTagArray`: starting from
the first path segment, each further segment extends the accumulated
prefix with `"/" + part`, and every intermediate accumulation is
returned. -/
def tagPrefixes (acc : String) : List String → List String
  | [] => [acc]
  | p :: ps => acc :: tagPrefixes (acc ++ "/" ++ p) ps

/-- `FilterService.generateTagArray`: split the compound tag on `"/"`
and return the progressive prefixes (`"#a/b/c"` gives `["#a", "#a/b",
"#a/b/c"]`). -/
def generateTagArray (compoundTag : String) : List String :=
  match jsSplit "/" compoundTag with
  | [] => []
  | p :: ps => tagPrefixes p ps

/-- Insertion into the `values` set of `getUniqueValues`, modelled as a
duplicate-free list in insertion order (a JavaScript `Set`). -/
def addSet (acc : List String) (x : String) : List String :=
  if x ∈ acc then acc else acc ++ [x]

/-- The per-token body of the comma branch of `getUniqueValues`: trim
the token; skip a blank token; expand a token starting with `#` into its
tag prefixes; otherwise add the trimmed token. -/
def stepToken (a : List String) (tok : String) : List String :=
  let trimmed := jsTrim tok
  if trimmed != "" then
    if jsStartsWith trimmed "#" then
      (generateTagArray trimmed).foldl addSet a
    else addSet a trimmed
  else a

/-- The per-value body of `getUniqueValues`: a value containing a comma
is split and processed token-wise; otherwise a non-blank value is
expanded when it starts with `#` (tested on the *untrimmed* value,
expanding the trimmed one) or added trimmed. -/
def collectValue (acc : List String) (v : String) : List String :=
  if jsIncludes v "," then
    (jsSplit "," v).foldl stepToken acc
  else if jsTrim v != "" then
    if jsStartsWith v "#" then
      (generateTagArray (jsTrim v)).foldl addSet acc
    else addSet acc (jsTrim v)
  else acc

/-- The per-entry body of `getUniqueValues`: a `null`/`undefined` field
value is skipped, any other value is collected.  Entries are modelled as
maps from property name to optional (string-coerced) value. -/
def entryStep (property : String) (acc : List String)
    (e : String → Option String) : List String :=
  match e property with
  | none => acc
  | some v => collectValue acc v

/-- The fully accumulated distinct-value list of
`FilterService.getUniqueValues` over all entries, in insertion order. -/
def collectAll (entries : List (String → Option String))
    (property : String) : List String :=
  entries.foldl (entryStep property) []

/-- `FilterService.getUniqueValues`: collect the distinct values, sort
them with the configured locale's collation — abstracted as the integer
comparator `cmp` handed to the sort, ascending meaning `cmp a b ≤ 0` —
and prepend the `"all"` sentinel. -/
def getUniqueValues (entries : List (String → Option String))
    (property : String) (cmp : String → String → Int) : List String :=
  "all" :: (collectAll entries property).mergeSort
    (fun a b => decide (cmp a b ≤ 0))

/-- Set insertion only grows the accumulator. -/
theorem addSet_subset (acc : List String) (x : String) :
    acc ⊆ addSet acc x := by
  unfold addSet
  split
  · exact List.Subset.refl acc
  · exact List.subset_append_left acc [x]

/-- The inserted element is a member afterwards. -/
theorem mem_addSet_self (acc : List String) (x : String) :
    x ∈ addSet acc x := by
  unfold addSet
  split
  · assumption
  · simp

/-- Set insertion keeps the accumulator duplicate-free. -/
theorem addSet_nodup (acc : List String) (x : String)
    (h : acc.Nodup) : (addSet acc x).Nodup := by
  unfold addSet
  split
  · exact h
  · rename_i hx
    rw [List.nodup_append]
    refine ⟨h, by simp, ?_⟩
    intro y hy hmem
    simp only [List.mem_singleton] at hmem
    subst hmem
    exact hx hy

/-- A fold whose step only grows the accumulator only grows it. -/
theorem foldl_grows {α : Type} (f : List String → α → List String)
    (hf : ∀ a t, a ⊆ f a t) :
    ∀ (l : List α) (acc : List String), acc ⊆ List.foldl f acc l := by
  intro l
  induction l with
  | nil => intro acc; exact List.Subset.refl acc
  | cons a l ih =>
    intro acc
    exact List.Subset.trans (hf acc a) (ih (f acc a))

/-- A fold whose step preserves a predicate preserves it. -/
theorem foldl_preserve {α β : Type} (f : β → α → β) (P : β → Prop)
    (hf : ∀ a t, P a → P (f a t)) :
    ∀ (l : List α) (acc : β), P acc → P (List.foldl f acc l) := by
  intro l
  induction l with
  | nil => intro acc h; exact h
  | cons a l ih =>
    intro acc h
    exact ih (f acc a) (hf acc a h)

/-- Every element of the folded-in list is in the resulting set. -/
theorem mem_foldl_addSet (l : List String) :
    ∀ (acc : List String) (x : String), x ∈ l →
      x ∈ List.foldl addSet acc l := by
  induction l with
  | nil => intro acc x hx; simp at hx
  | cons a l ih =>
    intro acc x hx
    rcases List.mem_cons.mp hx with rfl | hx
    · exact foldl_grows addSet addSet_subset l (addSet acc x)
        (mem_addSet_self acc x)
    · exact ih (addSet acc a) x hx

/-- The token step only grows the accumulator. -/
theorem stepToken_subset (a : List String) (tok : String) :
    a ⊆ stepToken a tok := by
  simp only [stepToken]
  split
  · split
    · exact foldl_grows addSet addSet_subset _ a
    · exact addSet_subset a _
  · exact List.Subset.refl a

/-- The value step only grows the accumulator. -/
theorem collectValue_subset (acc : List String) (v : String) :
    acc ⊆ collectValue acc v := by
  unfold collectValue
  split
  · exact foldl_grows stepToken stepToken_subset _ acc
  · split
    · split
      · exact foldl_grows addSet addSet_subset _ acc
      · exact addSet_subset acc _
    · exact List.Subset.refl acc

/-- The entry step only grows the accumulator. -/
theorem entryStep_subset (property : String) (acc : List String)
    (e : String → Option String) : acc ⊆ entryStep property acc e := by
  unfold entryStep
  split
  · exact List.Subset.refl acc
  · exact collectValue_subset acc _

/-- The token step keeps the accumulator duplicate-free. -/
theorem stepToken_nodup (a : List String) (tok : String)
    (h : a.Nodup) : (stepToken a tok).Nodup := by
  simp only [stepToken]
  split
  · split
    · exact foldl_preserve addSet List.Nodup
        (fun acc x hx => addSet_nodup acc x hx) _ a h
    · exact addSet_nodup a _ h
  · exact h

/-- The value step keeps the accumulator duplicate-free. -/
theorem collectValue_nodup (acc : List String) (v : String)
    (h : acc.Nodup) : (collectValue acc v).Nodup := by
  unfold collectValue
  split
  · exact foldl_preserve stepToken List.Nodup
      (fun a t ha => stepToken_nodup a t ha) _ acc h
  · split
    · split
      · exact foldl_preserve addSet List.Nodup
          (fun a x ha => addSet_nodup a x ha) _ acc h
      · exact addSet_nodup acc _ h
    · exact h

/-- The collected distinct-value list is duplicate-free. -/
theorem collectAll_nodup (entries : List (String → Option String))
    (property : String) : (collectAll entries property).Nodup := by
  unfold collectAll
  exact foldl_preserve (entryStep property) List.Nodup
    (fun acc e ha => by
      unfold entryStep
      split
      · exact ha
      · exact collectValue_nodup acc _ ha)
    entries [] List.nodup_nil

/-- A non-blank `#`-token contributes every one of its tag prefixes. -/
theorem mem_stepToken_tag (a : List String) (tok : String)
    (h1 : jsTrim tok ≠ "") (h2 : jsStartsWith (jsTrim tok) "#" = true)
    (p : String) (hp : p ∈ generateTagArray (jsTrim tok)) :
    p ∈ stepToken a tok := by
  simp only [stepToken]
  rw [if_pos (by simp [h1]), if_pos h2]
  exact mem_foldl_addSet _ a p hp

/-- A non-blank plain token contributes its trimmed form. -/
theorem mem_stepToken_plain (a : List String) (tok : String)
    (h1 : jsTrim tok ≠ "") (h2 : jsStartsWith (jsTrim tok) "#" = false) :
    jsTrim tok ∈ stepToken a tok := by
  simp only [stepToken]
  rw [if_pos (by simp [h1]), if_neg (by simp [h2])]
  exact mem_addSet_self a _

/-- Anything contributed by one token of a comma-joined value is in the
collected set for that value. -/
theorem mem_collectValue_of_stepToken (acc : List String) (v tok : String)
    (hc : jsIncludes v "," = true) (htok : tok ∈ jsSplit "," v)
    (p : String) (hp : ∀ A : List String, p ∈ stepToken A tok) :
    p ∈ collectValue acc v := by
  unfold collectValue
  rw [if_pos hc]
  obtain ⟨pre, post, hsplit⟩ := List.append_of_mem htok
  rw [hsplit, List.foldl_append]
  simp only [List.foldl_cons]
  exact foldl_grows stepToken stepToken_subset post _ (hp _)

/-- Anything contributed by one entry's value is in the overall
collected set. -/
theorem mem_collectAll (entries : List (String → Option String))
    (property : String) (e : String → Option String) (v : String)
    (he : e ∈ entries) (hv : e property = some v) (p : String)
    (hp : ∀ A : List String, p ∈ collectValue A v) :
    p ∈ collectAll entries property := by
  obtain ⟨pre, post, hsplit⟩ := List.append_of_mem he
  unfold collectAll
  rw [hsplit, List.foldl_append]
  simp only [List.foldl_cons]
  have hstep : entryStep property (List.foldl (entryStep property) [] pre) e
      = collectValue (List.foldl (entryStep property) [] pre) v := by
    unfold entryStep
    rw [hv]
  rw [hstep]
  exact foldl_grows (entryStep property) (entryStep_subset property) post _
    (hp _)

unseal splitSepAux in
/-- C8: `getUniqueValues` returns the `"all"` sentinel first, followed by
a duplicate-free list that is a permutation of the collected distinct
values, sorted ascending by the locale comparator; every trimmed token of
a comma-joined value is represented — a `#`-token through all of its
hierarchical tag prefixes (as `generateTagArray` produces them, e.g.
`"#a/b/c"` gives `"#a"`, `"#a/b"`, `"#a/b/c"`), a plain token through its
trimmed form. -/
theorem c8_unique_values (entries : List (String → Option String))
    (property : String) (cmp : String → String → Int)
    (htr : ∀ a b c, cmp a b ≤ 0 → cmp b c ≤ 0 → cmp a c ≤ 0)
    (hto : ∀ a b, cmp a b ≤ 0 ∨ cmp b a ≤ 0) :
    ∃ rest, getUniqueValues entries property cmp = "all" :: rest ∧
      rest.Perm (collectAll entries property) ∧
      rest.Pairwise (fun a b => cmp a b ≤ 0) ∧
      rest.Nodup ∧
      (∀ e ∈ entries, ∀ v, e property = some v →
        jsIncludes v "," = true →
        ∀ tok ∈ jsSplit "," v, jsTrim tok ≠ "" →
          (jsStartsWith (jsTrim tok) "#" = true →
            ∀ p ∈ generateTagArray (jsTrim tok), p ∈ rest) ∧
          (jsStartsWith (jsTrim tok) "#" = false → jsTrim tok ∈ rest)) ∧
      generateTagArray "#a/b/c" = ["#a", "#a/b", "#a/b/c"] := by
  refine ⟨(collectAll entries property).mergeSort
      (fun a b => decide (cmp a b ≤ 0)), rfl, ?_, ?_, ?_, ?_, ?_⟩
  · exact List.mergeSort_perm _ _
  · have htr2 : ∀ a b c : String,
        (decide (cmp a b ≤ 0)) = true → (decide (cmp b c ≤ 0)) = true →
        (decide (cmp a c ≤ 0)) = true := by
      intro a b c h1 h2
      simp only [decide_eq_true_eq] at h1 h2 ⊢
      exact htr a b c h1 h2
    have hto2 : ∀ a b : String,
        ((decide (cmp a b ≤ 0)) || (decide (cmp b a ≤ 0))) = true := by
      intro a b
      rcases hto a b with h | h <;> simp [h]
    have hs := List.sorted_mergeSort htr2 hto2 (collectAll entries property)
    exact hs.imp (fun h => by simpa using h)
  · rw [(List.mergeSort_perm _ _).nodup_iff]
    exact collectAll_nodup entries property
  · intro e he v hv hc tok htok h1
    constructor
    · intro h2 p hp
      refine ((List.mergeSort_perm _ _).mem_iff).mpr ?_
      exact mem_collectAll entries property e v he hv p
        (fun A => mem_collectValue_of_stepToken A v tok hc htok p
          (fun B => mem_stepToken_tag B tok h1 h2 p hp))
    · intro h2
      refine ((List.mergeSort_perm _ _).mem_iff).mpr ?_
      exact mem_collectAll entries property e v he hv (jsTrim tok)
        (fun A => mem_collectValue_of_stepToken A v tok hc htok (jsTrim tok)
          (fun B => mem_stepToken_plain B tok h1 h2))
  · decide

/-- A concrete total comparator standing in for the locale collation in
the witness: lexicographic string order as an integer comparator. -/
def cmpStr (a b : String) : Int :=
  if a < b then -1 else if b < a then 1 else 0

/-- The concrete comparator's order agrees with string order. -/
theorem cmpStr_le_iff (a b : String) : cmpStr a b ≤ 0 ↔ a ≤ b := by
  unfold cmpStr
  split_ifs with h1 h2
  · exact iff_of_true (by decide) (le_of_lt h1)
  · exact iff_of_false (by decide) (not_le.mpr h2)
  · exact iff_of_true (by decide) (le_of_not_lt h2)

/-- The concrete comparator is transitive. -/
theorem cmpStr_trans : ∀ a b c : String,
    cmpStr a b ≤ 0 → cmpStr b c ≤ 0 → cmpStr a c ≤ 0 :=
  fun a b c h1 h2 => (cmpStr_le_iff a c).mpr
    (le_trans ((cmpStr_le_iff a b).mp h1) ((cmpStr_le_iff b c).mp h2))

/-- The concrete comparator is total. -/
theorem cmpStr_total : ∀ a b : String, cmpStr a b ≤ 0 ∨ cmpStr b a ≤ 0 :=
  fun a b => (le_total a b).imp (cmpStr_le_iff a b).mpr (cmpStr_le_iff b a).mpr

/-- A concrete entry whose `type` field is a comma-joined pair of tags. -/
def entryW : String → Option String :=
  fun k => if k == "type" then some "#verbe/régulier/1, #nom" else none

/-- Witness for C8: the theorem applied to one concrete entry and the
concrete comparator. -/
theorem c8_unique_values_witness :
    ∃ rest, getUniqueValues [entryW] "type" cmpStr = "all" :: rest ∧
      rest.Perm (collectAll [entryW] "type") ∧
      rest.Pairwise (fun a b => cmpStr a b ≤ 0) ∧
      rest.Nodup ∧
      (∀ e ∈ [entryW], ∀ v, e "type" = some v →
        jsIncludes v "," = true →
        ∀ tok ∈ jsSplit "," v, jsTrim tok ≠ "" →
          (jsStartsWith (jsTrim tok) "#" = true →
            ∀ p ∈ generateTagArray (jsTrim tok), p ∈ rest) ∧
          (jsStartsWith (jsTrim tok) "#" = false → jsTrim tok ∈ rest)) ∧
      generateTagArray "#a/b/c" = ["#a", "#a/b", "#a/b/c"] :=
  c8_unique_values [entryW] "type" cmpStr cmpStr_trans cmpStr_total

end LearnLanguage
